import Mathlib

/-!
Shallow embedding of the wrdl commitment/proof guess-validation core.

Words are lists of characters; the SHA-256 hasher is modelled as an abstract
function parameter (hash : String → String); collision-freeness is an explicit
injectivity hypothesis where a theorem needs it.  JS Maps keyed by letters are
total functions Char → Nat with default 0; thrown errors are Except.error.
-/

deriving instance DecidableEq for Except

namespace Wrdl

/-- Per-position feedback states (correct / present / absent). -/
inductive LState
  | correct
  | present
  | absent
deriving DecidableEq

/-- The 26-letter uppercase alphabet scanned by the hash-mode evaluator. -/
def alphabet : List Char := "ABCDEFGHIJKLMNOPQRSTUVWXYZ".toList

/-- JS String.prototype.toUpperCase on a word, character by character. -/
def upper (w : List Char) : List Char := w.map Char.toUpper

/-- The leaf input string i ++ ":" ++ letter ++ ":" ++ salt used for every
position hash in the system. -/
def leafString (i : Nat) (c : Char) (salt : String) : String :=
  toString i ++ ":" ++ String.singleton c ++ ":" ++ salt

/-- map.set(letter, (map.get(letter) or 0) + 1) on a Char-keyed counter. -/
def bumpCount (m : Char → Nat) (c : Char) : Char → Nat :=
  fun d => if d = c then m c + 1 else m d

/-- map.set(letter, available - 1) on a Char-keyed counter. -/
def decCount (m : Char → Nat) (c : Char) : Char → Nat :=
  fun d => if d = c then m c - 1 else m d

/-- checkGuess second pass, counting step (src/app/api/wordle/route.ts):
count solution letters at non-correct positions. -/
def countLetters (solution : List Char) (correctPos : Nat → Bool) (idxs : List Nat) :
    Char → Nat :=
  idxs.foldl (fun m i => if correctPos i then m else bumpCount m (solution.getD i ' '))
    (fun _ => 0)

/-- checkGuess second pass, assignment step (src/app/api/wordle/route.ts):
positions already correct keep their pass-1 mark; otherwise present while the
guessed letter still has available count (decrementing), else absent. -/
def secondPass (guess : List Char) (correctPos : Nat → Bool) :
    List Nat → (Char → Nat) → List LState
  | [], _ => []
  | i :: rest, m =>
    if correctPos i then LState.correct :: secondPass guess correctPos rest m
    else if m (guess.getD i ' ') > 0 then
      LState.present :: secondPass guess correctPos rest (decCount m (guess.getD i ' '))
    else LState.absent :: secondPass guess correctPos rest m

/-- checkGuess (src/app/api/wordle/route.ts): frequency-aware two-pass
evaluation of a guess against the plaintext solution, length fixed at 5. -/
def checkGuess (guess solution : List Char) : List LState :=
  secondPass guess (fun i => guess.getD i ' ' == solution.getD i ' ') (List.range 5)
    (countLetters solution (fun i => guess.getD i ' ' == solution.getD i ' ')
      (List.range 5))

/-- The proof bundle returned by generateZKProof. -/
structure ZKProof where
  commitment : String
  merkleRoot : String
  wordLength : Nat
deriving DecidableEq

/-- The per-position leaf table: entry i is hash(i:secret[i]:salt).  This is
the leaves array built inside generateZKProof (lib/zero-knowledge-proof) and
the position-hash table published to the client. -/
def buildPositionHashes (hash : String → String) (secret : List Char) (salt : String) :
    List String :=
  (List.range secret.length).map (fun i => hash (leafString i (secret.getD i ' ') salt))

/-- generateZKProof (lib/zero-knowledge-proof): Date.now() is passed in
explicitly as now.  The merkle root is a flat hash of the joined leaves. -/
def generateZKProof (hash : String → String) (word : List Char) (salt : String)
    (now : Nat) : ZKProof :=
  { commitment := hash (String.mk (upper word) ++ salt ++ toString now)
    merkleRoot := hash (String.join (buildPositionHashes hash (upper word) salt))
    wordLength := (upper word).length }

/-- A letter proof as returned by generateLetterProof; letter is a string so
that the withheld case can be the empty string, as in the source. -/
structure LetterProof where
  position : Int
  letter : String
  proof : List String
  isCorrect : Bool
deriving DecidableEq

/-- Body of generateLetterProof once the position check has passed
(p is the position, already known to be in range). -/
def letterProofData (hash : String → String) (w : List Char) (p : Nat) (g : Char)
    (salt : String) : LetterProof :=
  { position := (p : Int)
    letter := if w.getD p ' ' == g then String.singleton (w.getD p ' ') else ""
    proof := hash (leafString p (w.getD p ' ') salt) ::
      ((List.range w.length).filter (fun i => i != p)).map
        (fun i => hash (leafString i (w.getD i ' ') salt))
    isCorrect := w.getD p ' ' == g }

/-- generateLetterProof (lib/zero-knowledge-proof): throws on an out-of-range
position, reveals the letter only when the guess is correct, and returns the
queried position hash followed by every sibling position hash. -/
def generateLetterProof (hash : String → String) (word : List Char) (position : Int)
    (guessedLetter : Char) (salt : String) : Except String LetterProof :=
  if position < 0 ∨ (((upper word).length : Int)) ≤ position then
    Except.error "Invalid position"
  else
    Except.ok (letterProofData hash (upper word) position.toNat
      (Char.toUpper guessedLetter) salt)

/-- verifyLetterProof (lib/zero-knowledge-proof): trusts any proof whose
isCorrect flag is false; otherwise checks that the recomputed hash occurs in
the proof array. -/
def verifyLetterProof (hash : String → String) (lp : LetterProof) (zk : ZKProof)
    (salt : String) : Bool :=
  if !lp.isCorrect then true
  else lp.proof.contains (hash (toString lp.position ++ ":" ++ lp.letter ++ ":" ++ salt))

/-- A word-presence proof as returned by generateWordPresenceProof. -/
structure PresenceProof where
  isPresent : Bool
  proof : String
deriving DecidableEq

/-- generateWordPresenceProof (lib/zero-knowledge-proof): hash of the letter
together with the comma-joined list of its occurrence positions. -/
def generateWordPresenceProof (hash : String → String) (word : List Char)
    (guessedLetter : Char) (salt : String) : PresenceProof :=
  if (upper word).contains (Char.toUpper guessedLetter) then
    { isPresent := true
      proof := hash (String.singleton (Char.toUpper guessedLetter) ++ ":" ++
        String.intercalate ","
          (((List.range (upper word).length).filter
            (fun i => (upper word).getD i ' ' == Char.toUpper guessedLetter)).map
            (fun i => toString i)) ++ ":" ++ salt) }
  else { isPresent := false, proof := "" }

/-- verifyWordPresenceProof (lib/zero-knowledge-proof): returns true without
examining any argument. -/
def verifyWordPresenceProof (letter : String) (pr : String) (isPresent : Bool) : Bool :=
  true

/-- A per-position entry of the client validator's letterStates array. -/
structure LetterStateRec where
  position : Nat
  letter : Char
  state : LState
deriving DecidableEq

/-- The result object of validateGuessWithZK. -/
structure GuessResult where
  letterStates : List LetterStateRec
  isWinner : Bool
  guess : List Char
deriving DecidableEq

/-- First pass of validateGuessWithZK at index i: the recomputed hash of the
guessed letter matches the published position hash. -/
def zkCorrect (hash : String → String) (g : List Char) (salt : String)
    (posHashes : List String) (i : Nat) : Bool :=
  hash (leafString i (g.getD i ' ') salt) == posHashes.getD i ""

/-- Second pass of validateGuessWithZK: for each non-correct target position,
brute-force the 26-letter alphabet for the letter whose hash matches that
position's published hash (first match wins), and count it. -/
def zkAvail (hash : String → String) (g : List Char) (salt : String)
    (posHashes : List String) : Char → Nat :=
  (List.range posHashes.length).foldl
    (fun m t =>
      if zkCorrect hash g salt posHashes t then m
      else
        match alphabet.find? (fun c => hash (leafString t c salt) == posHashes.getD t "") with
        | some c => bumpCount m c
        | none => m)
    (fun _ => 0)

/-- Third pass of validateGuessWithZK: frequency-aware assignment.  The pass-1
placeholder states are overwritten here for every non-correct position, so the
two passes are fused into one list construction. -/
def zkThirdPass (g : List Char) (correctPos : Nat → Bool) (avail : Char → Nat) :
    List Nat → (Char → Nat) → List LetterStateRec
  | [], _ => []
  | i :: rest, used =>
    if correctPos i then
      { position := i, letter := g.getD i ' ', state := LState.correct } ::
        zkThirdPass g correctPos avail rest used
    else if avail (g.getD i ' ') > used (g.getD i ' ') then
      { position := i, letter := g.getD i ' ', state := LState.present } ::
        zkThirdPass g correctPos avail rest (bumpCount used (g.getD i ' '))
    else
      { position := i, letter := g.getD i ' ', state := LState.absent } ::
        zkThirdPass g correctPos avail rest used

/-- validateGuessWithZK (src/lib/zk-client-validator.ts): hash-mode evaluation
of a guess against the published position-hash table. -/
def validateGuessWithZK (hash : String → String) (guess : List Char) (wordLength : Nat)
    (salt : String) (posHashes : List String) : Except String GuessResult :=
  if (upper guess).length ≠ wordLength then Except.error "Invalid guess length"
  else if posHashes.length ≠ wordLength then Except.error "Invalid position hashes"
  else
    Except.ok
      { letterStates := zkThirdPass (upper guess)
          (zkCorrect hash (upper guess) salt posHashes)
          (zkAvail hash (upper guess) salt posHashes)
          (List.range (upper guess).length) (fun _ => 0)
        isWinner := (zkThirdPass (upper guess)
          (zkCorrect hash (upper guess) salt posHashes)
          (zkAvail hash (upper guess) salt posHashes)
          (List.range (upper guess).length) (fun _ => 0)).all
            (fun ls => ls.state == LState.correct)
        guess := upper guess }

/-- The permanent salt used by the ZK route (part of the repository). -/
def ZK_SALT : String := "wrdl-zk-salt-2025-permanent"

/-- A per-position entry of the ZK route handler's letterStates array. -/
structure HandlerLetterState where
  position : Nat
  letter : Char
  state : LState
  proof : LetterProof
  presenceProof : Option PresenceProof
deriving DecidableEq

/-- The per-letter loop of handleValidateGuess: letter proof, naive
includes-based state, and presence proof for present letters.  A thrown error
from generateLetterProof propagates. -/
def handlerLoop (hash : String → String) (w g : List Char) :
    List Nat → Except String (List HandlerLetterState)
  | [] => Except.ok []
  | i :: rest =>
    match generateLetterProof hash w (i : Int) (g.getD i ' ') ZK_SALT with
    | Except.error e => Except.error e
    | Except.ok lp =>
      match handlerLoop hash w g rest with
      | Except.error e => Except.error e
      | Except.ok tail =>
        Except.ok
          ({ position := i
             letter := g.getD i ' '
             state :=
               if w.getD i ' ' == g.getD i ' ' then LState.correct
               else if w.contains (g.getD i ' ') then LState.present
               else LState.absent
             proof := lp
             presenceProof :=
               if (if w.getD i ' ' == g.getD i ' ' then LState.correct
                   else if w.contains (g.getD i ' ') then LState.present
                   else LState.absent) == LState.present then
                 some (generateWordPresenceProof hash w (g.getD i ' ') ZK_SALT)
               else none } :: tail)

/-- The per-guess response object of handleValidateGuess. -/
structure HandlerResponse where
  guess : List Char
  letterStates : List HandlerLetterState
  isWinner : Bool
  word : Option String
deriving DecidableEq

/-- handleValidateGuess (ZK route) after session resolution: length check,
per-letter loop, winner check, and the word field revealed only on a win. -/
def handleValidateGuess (hash : String → String) (word guess : List Char) :
    Except String HandlerResponse :=
  if (upper guess).length ≠ (upper word).length then Except.error "Invalid guess length"
  else
    match handlerLoop hash (upper word) (upper guess) (List.range (upper guess).length) with
    | Except.error e => Except.error e
    | Except.ok states =>
      Except.ok
        { guess := upper guess
          letterStates := states
          isWinner := upper guess == upper word
          word := if upper guess == upper word then some (String.mk (upper word)) else none }

/-! ### Basic helper lemmas -/

theorem append_data (s t : String) : (s ++ t).data = s.data ++ t.data := by
  cases s; cases t; rfl

theorem mapRange_getD {α : Type} (f : Nat → α) {n i : Nat} (d : α) (h : i < n) :
    ((List.range n).map f).getD i d = f i := by
  have hl : i < ((List.range n).map f).length := by simpa using h
  rw [List.getD_eq_getElem _ d hl]
  simp

theorem toUpper_fixed : ∀ c ∈ alphabet, Char.toUpper c = c := by decide

theorem upper_eq_self {w : List Char} (h : ∀ c ∈ w, c ∈ alphabet) : upper w = w := by
  unfold upper
  rw [List.map_congr_left (fun c hc => toUpper_fixed c (h c hc))]
  exact List.map_id w

theorem upper_length (w : List Char) : (upper w).length = w.length :=
  List.length_map w Char.toUpper

theorem singleton_data (c : Char) : (String.singleton c).data = [c] := rfl

theorem leafString_inj {i : Nat} {s : String} {c₁ c₂ : Char}
    (h : leafString i c₁ s = leafString i c₂ s) : c₁ = c₂ := by
  have hd := congrArg String.data h
  simp only [leafString, append_data, singleton_data, List.append_assoc,
    List.singleton_append, List.cons_append, List.append_cancel_left_eq,
    List.cons.injEq] at hd
  exact hd.2.1

theorem find?_eq_of_pred {α : Type} [BEq α] [LawfulBEq α] (p : α → Bool) (x : α) :
    ∀ (l : List α), x ∈ l → (∀ y ∈ l, p y = (y == x)) → l.find? p = some x := by
  intro l
  induction l with
  | nil => intro hx; exact absurd hx (List.not_mem_nil x)
  | cons a l ih =>
    intro hx hp
    by_cases ha : p a = true
    · have hax : a = x := by
        have h1 := hp a (List.mem_cons_self a l)
        rw [ha] at h1
        exact beq_iff_eq.mp h1.symm
      rw [List.find?_cons_of_pos _ ha, hax]
    · have hax : a ≠ x := by
        intro he
        apply ha
        rw [hp a (List.mem_cons_self a l), he]
        exact beq_self_eq_true x
      have hx' : x ∈ l := by
        rcases List.mem_cons.mp hx with h | h
        · exact absurd h.symm hax
        · exact h
      rw [List.find?_cons_of_neg _ ha]
      exact ih hx' (fun y hy => hp y (List.mem_cons_of_mem a hy))

theorem bool_eq_of_iff {a b : Bool} (h : a = true ↔ b = true) : a = b := by
  cases a <;> cases b <;> simp_all

theorem all_map_eq {α β : Type} (f : α → β) (p : β → Bool) :
    ∀ l : List α, (l.map f).all p = l.all (fun a => p (f a))
  | [] => rfl
  | a :: l => by
    rw [List.map_cons, List.all_cons, List.all_cons, all_map_eq f p l]

theorem getD_mem {l : List Char} {i : Nat} (h : i < l.length) : l.getD i ' ' ∈ l := by
  rw [List.getD_eq_getElem _ _ h]
  exact List.getElem_mem h

/-! ### Hash-mode versus plaintext-mode evaluation -/

theorem leafBeq_eq {hash : String → String} (hinj : Function.Injective hash)
    (t : Nat) (salt : String) (c x : Char) :
    (hash (leafString t c salt) == hash (leafString t x salt)) = (c == x) := by
  apply bool_eq_of_iff
  rw [beq_iff_eq, beq_iff_eq]
  constructor
  · intro he
    exact leafString_inj (hinj he)
  · intro he
    rw [he]

theorem buildPositionHashes_getD {hash : String → String} (S : List Char) (salt : String)
    {i : Nat} (h : i < S.length) :
    (buildPositionHashes hash S salt).getD i "" =
      hash (leafString i (S.getD i ' ') salt) := by
  unfold buildPositionHashes
  exact mapRange_getD _ _ h

theorem zkCorrect_eq {hash : String → String} (hinj : Function.Injective hash)
    (G S : List Char) (salt : String) {i : Nat} (h : i < S.length) :
    zkCorrect hash G salt (buildPositionHashes hash S salt) i =
      (G.getD i ' ' == S.getD i ' ') := by
  unfold zkCorrect
  rw [buildPositionHashes_getD S salt h]
  exact leafBeq_eq hinj i salt _ _

theorem zkAvail_eq {hash : String → String} (hinj : Function.Injective hash)
    (G S : List Char) (salt : String) (hS : ∀ c ∈ S, c ∈ alphabet) :
    zkAvail hash G salt (buildPositionHashes hash S salt) =
      countLetters S (fun i => G.getD i ' ' == S.getD i ' ') (List.range S.length) := by
  unfold zkAvail countLetters
  rw [show (buildPositionHashes hash S salt).length = S.length by
    simp [buildPositionHashes]]
  apply List.foldl_ext
  intro m t ht
  have ht' : t < S.length := List.mem_range.mp ht
  rw [zkCorrect_eq hinj G S salt ht']
  by_cases hc : (G.getD t ' ' == S.getD t ' ') = true
  · rw [if_pos hc, if_pos hc]
  · rw [if_neg hc, if_neg hc,
      show (fun c => hash (leafString t c salt) ==
          (buildPositionHashes hash S salt).getD t "") =
        (fun c => hash (leafString t c salt) ==
          hash (leafString t (S.getD t ' ') salt)) by
        funext c
        rw [buildPositionHashes_getD S salt ht'],
      find?_eq_of_pred _ (S.getD t ' ') alphabet (hS _ (getD_mem ht'))
        (fun y _ => leafBeq_eq hinj t salt y (S.getD t ' '))]

theorem thirdPass_states (g : List Char) (avail : Char → Nat) :
    ∀ (idxs : List Nat) (corr₁ corr₂ : Nat → Bool) (used m : Char → Nat),
      (∀ i ∈ idxs, corr₁ i = corr₂ i) →
      (∀ c, m c = avail c - used c) →
      (zkThirdPass g corr₁ avail idxs used).map (fun ls => ls.state) =
        secondPass g corr₂ idxs m
  | [], _, _, _, _, _, _ => rfl
  | i :: rest, corr₁, corr₂, used, m, hcorr, hm => by
    have hci : corr₁ i = corr₂ i := hcorr i (List.mem_cons_self i rest)
    have hrest : ∀ j ∈ rest, corr₁ j = corr₂ j :=
      fun j hj => hcorr j (List.mem_cons_of_mem i hj)
    by_cases hc : corr₁ i = true
    · rw [zkThirdPass, secondPass, if_pos hc, if_pos (hci ▸ hc), List.map_cons]
      exact congrArg _ (thirdPass_states g avail rest corr₁ corr₂ used m hrest hm)
    · have hc₂ : ¬corr₂ i = true := fun h => hc (hci ▸ h)
      rw [zkThirdPass, secondPass, if_neg hc, if_neg hc₂]
      by_cases hlt : used (g.getD i ' ') < avail (g.getD i ' ')
      · rw [if_pos hlt, if_pos (by rw [hm]; omega), List.map_cons]
        refine congrArg _ (thirdPass_states g avail rest corr₁ corr₂ _ _ hrest ?_)
        intro c
        unfold bumpCount decCount
        by_cases hcc : c = g.getD i ' '
        · rw [if_pos hcc, if_pos hcc, hcc, hm]
          omega
        · rw [if_neg hcc, if_neg hcc]
          exact hm c
      · rw [if_neg hlt, if_neg (by rw [hm]; omega), List.map_cons]
        exact congrArg _ (thirdPass_states g avail rest corr₁ corr₂ used m hrest hm)

theorem thirdPass_all_correct (g : List Char) (avail : Char → Nat) :
    ∀ (idxs : List Nat) (corr : Nat → Bool) (used : Char → Nat),
      (zkThirdPass g corr avail idxs used).all
        (fun ls => ls.state == LState.correct) = idxs.all corr
  | [], _, _ => rfl
  | i :: rest, corr, used => by
    by_cases hc : corr i = true
    · rw [zkThirdPass, if_pos hc, List.all_cons, List.all_cons, hc]
      simp only [Bool.true_and]
      exact thirdPass_all_correct g avail rest corr used
    · rw [List.all_cons, Bool.eq_false_iff.mpr hc, Bool.false_and]
      by_cases hlt : used (g.getD i ' ') < avail (g.getD i ' ')
      · rw [zkThirdPass, if_neg hc, if_pos hlt, List.all_cons]
        simp
      · rw [zkThirdPass, if_neg hc, if_neg hlt, List.all_cons]
        simp

theorem all_getD_beq {a b : List Char} {n : Nat} (ha : a.length = n) (hb : b.length = n) :
    (List.range n).all (fun i => a.getD i ' ' == b.getD i ' ') = (a == b) := by
  apply bool_eq_of_iff
  rw [List.all_eq_true, beq_iff_eq]
  constructor
  · intro h
    apply List.ext_getElem (ha.trans hb.symm)
    intro i h1 h2
    have hi := h i (List.mem_range.mpr (ha ▸ h1))
    rw [List.getD_eq_getElem _ _ h1, List.getD_eq_getElem _ _ h2] at hi
    exact beq_iff_eq.mp hi
  · intro h i _
    rw [h]
    exact beq_self_eq_true _

/-! ### The route handler's naive rule versus the two-pass rule -/

theorem countLetters_foldl (sol : List Char) (corr : Nat → Bool) :
    ∀ (idxs : List Nat) (m : Char → Nat) (c : Char),
      (idxs.foldl (fun m i => if corr i then m else bumpCount m (sol.getD i ' ')) m) c =
        m c + idxs.countP (fun i => !corr i && (sol.getD i ' ' == c))
  | [], _, _ => rfl
  | i :: rest, m, c => by
    rw [List.foldl_cons, List.countP_cons]
    by_cases hc : corr i = true
    · rw [if_pos hc, countLetters_foldl sol corr rest m c]
      have hp : (!corr i && (sol.getD i ' ' == c)) = false := by
        rw [hc]
        rfl
      rw [hp]
      simp
    · rw [if_neg hc, countLetters_foldl sol corr rest _ c]
      unfold bumpCount
      rw [Bool.eq_false_iff.mpr hc]
      by_cases hsc : sol.getD i ' ' = c
      · rw [if_pos hsc.symm, hsc]
        simp [Nat.add_comm, Nat.add_assoc]
      · rw [if_neg (fun h => hsc h.symm)]
        have hp : (!false && (sol.getD i ' ' == c)) = false := by
          rw [Bool.not_false, Bool.true_and]
          exact beq_eq_false_iff_ne.mpr hsc
        rw [hp]
        simp

theorem countLetters_pos (sol : List Char) (corr : Nat → Bool) (idxs : List Nat)
    (c : Char) :
    0 < countLetters sol corr idxs c ↔
      ∃ i ∈ idxs, corr i = false ∧ sol.getD i ' ' = c := by
  unfold countLetters
  rw [countLetters_foldl]
  simp only [Nat.zero_add, List.countP_pos, Bool.and_eq_true, Bool.not_eq_true',
    beq_iff_eq]

theorem secondPass_congr (g : List Char) (corr : Nat → Bool) :
    ∀ (idxs : List Nat) (m₁ m₂ : Char → Nat),
      (∀ i ∈ idxs, m₁ (g.getD i ' ') = m₂ (g.getD i ' ')) →
      secondPass g corr idxs m₁ = secondPass g corr idxs m₂
  | [], _, _, _ => rfl
  | i :: rest, m₁, m₂, hm => by
    have hmi := hm i (List.mem_cons_self i rest)
    have hrest := fun j hj => hm j (List.mem_cons_of_mem i hj)
    rw [secondPass, secondPass]
    by_cases hc : corr i = true
    · rw [if_pos hc, if_pos hc]
      exact congrArg _ (secondPass_congr g corr rest m₁ m₂ hrest)
    · rw [if_neg hc, if_neg hc, hmi]
      by_cases hp : m₂ (g.getD i ' ') > 0
      · rw [if_pos hp, if_pos hp]
        refine congrArg _ (secondPass_congr g corr rest _ _ (fun j hj => ?_))
        unfold decCount
        by_cases hcc : g.getD j ' ' = g.getD i ' '
        · rw [if_pos hcc, if_pos hcc, hmi]
        · rw [if_neg hcc, if_neg hcc]
          exact hrest j hj
      · rw [if_neg hp, if_neg hp]
        exact congrArg _ (secondPass_congr g corr rest m₁ m₂ hrest)

theorem secondPass_nodup_map (g : List Char) (corr : Nat → Bool) :
    ∀ (idxs : List Nat) (m : Char → Nat),
      (idxs.map (fun i => g.getD i ' ')).Nodup →
      secondPass g corr idxs m = idxs.map (fun i =>
        if corr i then LState.correct
        else if m (g.getD i ' ') > 0 then LState.present
        else LState.absent)
  | [], _, _ => rfl
  | i :: rest, m, hnd => by
    rw [List.map_cons] at hnd
    have hni : g.getD i ' ' ∉ rest.map (fun j => g.getD j ' ') :=
      (List.nodup_cons.mp hnd).1
    have hnr := (List.nodup_cons.mp hnd).2
    rw [secondPass, List.map_cons]
    by_cases hc : corr i = true
    · rw [if_pos hc, if_pos hc]
      exact congrArg _ (secondPass_nodup_map g corr rest m hnr)
    · rw [if_neg hc, if_neg hc]
      by_cases hp : m (g.getD i ' ') > 0
      · rw [if_pos hp, if_pos hp]
        refine congrArg _ ?_
        rw [secondPass_congr g corr rest (decCount m (g.getD i ' ')) m
          (fun j hj => by
            show (if g.getD j ' ' = g.getD i ' ' then m (g.getD i ' ') - 1
              else m (g.getD j ' ')) = m (g.getD j ' ')
            rw [if_neg (fun (he : g.getD j ' ' = g.getD i ' ') =>
              hni (he ▸ List.mem_map_of_mem (fun k => g.getD k ' ') hj))])]
        exact secondPass_nodup_map g corr rest m hnr
      · rw [if_neg hp, if_neg hp]
        exact congrArg _ (secondPass_nodup_map g corr rest m hnr)

theorem map_getD_range {g : List Char} {n : Nat} (h : g.length = n) :
    (List.range n).map (fun i => g.getD i ' ') = g := by
  apply List.ext_getElem (by simp [h])
  intro i h1 h2
  simp only [List.getElem_map, List.getElem_range]
  exact List.getD_eq_getElem g ' ' h2

theorem handlerLoop_states (hash : String → String) (w g : List Char) :
    ∀ (idxs : List Nat), (∀ i ∈ idxs, i < w.length) →
      (handlerLoop hash w g idxs).map (fun l => l.map (fun s => s.state)) =
        Except.ok (idxs.map (fun i =>
          if w.getD i ' ' == g.getD i ' ' then LState.correct
          else if w.contains (g.getD i ' ') then LState.present
          else LState.absent))
  | [], _ => rfl
  | i :: rest, hidx => by
    have hi : i < w.length := hidx i (List.mem_cons_self i rest)
    have hrest := fun j hj => hidx j (List.mem_cons_of_mem i hj)
    have hok : generateLetterProof hash w (i : Int) (g.getD i ' ') ZK_SALT =
        Except.ok (letterProofData hash (upper w) (Int.toNat (i : Int))
          (Char.toUpper (g.getD i ' ')) ZK_SALT) := by
      unfold generateLetterProof
      rw [if_neg ?_]
      rintro (h | h)
      · omega
      · rw [upper_length] at h
        omega
    have hmap := handlerLoop_states hash w g rest hrest
    cases hrec : handlerLoop hash w g rest with
    | error e =>
      rw [hrec] at hmap
      exact absurd hmap (by simp [Except.map])
    | ok tail =>
      rw [hrec] at hmap
      simp only [Except.map] at hmap
      simp only [handlerLoop, hok, hrec, Except.map, List.map_cons]
      rw [Except.ok.injEq] at hmap ⊢
      rw [hmap]

/-! ### Injectivity of the decimal rendering of timestamps -/

theorem digitChar_val : ∀ d, d < 10 → (Nat.digitChar d).toNat - 48 = d := by decide

theorem toDigitsCore_val :
    ∀ (fuel n : Nat) (ds : List Char), n < fuel →
      ∃ pre : List Char, Nat.toDigitsCore 10 fuel n ds = pre ++ ds ∧
        pre.foldl (fun a c => a * 10 + (c.toNat - 48)) 0 = n := by
  intro fuel
  induction fuel with
  | zero => intro n ds h; omega
  | succ f ih =>
    intro n ds h
    rw [Nat.toDigitsCore]
    by_cases h0 : n / 10 = 0
    · have hn : n < 10 := (Nat.div_eq_zero_iff (by omega)).mp h0
      refine ⟨[Nat.digitChar (n % 10)], by rw [if_pos h0]; rfl, ?_⟩
      show 0 * 10 + ((Nat.digitChar (n % 10)).toNat - 48) = n
      rw [Nat.mod_eq_of_lt hn, Nat.zero_mul, Nat.zero_add]
      exact digitChar_val n hn
    · rw [if_neg h0]
      have hn0 : n ≠ 0 := fun he => h0 (by rw [he])
      have hk : n / 10 < f := by
        have h1 : n / 10 < n := Nat.div_lt_self (Nat.pos_of_ne_zero hn0) (by omega)
        omega
      rcases ih (n / 10) (Nat.digitChar (n % 10) :: ds) hk with ⟨pre, hpre, hval⟩
      refine ⟨pre ++ [Nat.digitChar (n % 10)],
        by rw [hpre, List.append_assoc, List.singleton_append], ?_⟩
      rw [List.foldl_append, hval]
      show (n / 10) * 10 + ((Nat.digitChar (n % 10)).toNat - 48) = n
      rw [digitChar_val (n % 10) (Nat.mod_lt n (by omega))]
      omega

theorem natRepr_inj : Function.Injective Nat.repr := by
  intro a b h
  rcases toDigitsCore_val (a + 1) a [] (Nat.lt_succ_self a) with ⟨pa, hpa, hva⟩
  rcases toDigitsCore_val (b + 1) b [] (Nat.lt_succ_self b) with ⟨pb, hpb, hvb⟩
  have hl : Nat.toDigits 10 a = Nat.toDigits 10 b := congrArg String.data h
  unfold Nat.toDigits at hl
  rw [hpa, hpb, List.append_nil, List.append_nil] at hl
  rw [← hva, ← hvb, hl]

theorem toStringNat_inj {a b : Nat} (h : (toString a : String) = toString b) :
    a = b :=
  natRepr_inj h

/-! ### Claim theorems -/

/-- C1: for every uppercase 5-letter secret S, salt, and uppercase guess G of
the same length, plaintext two-pass evaluation (checkGuess) and hash-mode
evaluation (validateGuessWithZK over the position-hash table whose entry i is
hash(i:S[i]:salt) with the same salt) produce identical per-position states
and the same winner flag, the hasher being collision-free (injective). -/
theorem zk_plaintext_equivalence (hash : String → String) (S G : List Char)
    (salt : String) (hinj : Function.Injective hash) (hS5 : S.length = 5)
    (hG5 : G.length = 5) (hSup : ∀ c ∈ S, c ∈ alphabet)
    (hGup : ∀ c ∈ G, c ∈ alphabet) :
    (validateGuessWithZK hash G 5 salt (buildPositionHashes hash S salt)).map
        (fun r => r.letterStates.map (fun ls => ls.state)) =
      Except.ok (checkGuess G S) ∧
    (validateGuessWithZK hash G 5 salt (buildPositionHashes hash S salt)).map
        (fun r => r.isWinner) = Except.ok (G == S) := by
  have hup : upper G = G := upper_eq_self hGup
  have hPH : (buildPositionHashes hash S salt).length = 5 := by
    simp [buildPositionHashes, hS5]
  unfold validateGuessWithZK
  rw [hup, hG5, hPH]
  rw [if_neg (fun h => h rfl), if_neg (fun h => h rfl)]
  simp only [Except.map]
  constructor
  · rw [zkAvail_eq hinj G S salt hSup, hS5]
    unfold checkGuess
    exact congrArg Except.ok
      (thirdPass_states G _ (List.range 5) _ _ (fun _ => 0) _
        (fun i hi => zkCorrect_eq hinj G S salt (hS5 ▸ List.mem_range.mp hi))
        (fun c => (Nat.sub_zero _).symm))
  · rw [thirdPass_all_correct]
    refine congrArg Except.ok ?_
    rw [show (List.range 5).all
          (zkCorrect hash G salt (buildPositionHashes hash S salt)) =
        (List.range 5).all (fun i => G.getD i ' ' == S.getD i ' ') from
      bool_eq_of_iff (by
        rw [List.all_eq_true, List.all_eq_true]
        exact ⟨fun h i hi => (zkCorrect_eq hinj G S salt
            (hS5 ▸ List.mem_range.mp hi)) ▸ h i hi,
          fun h i hi => (zkCorrect_eq hinj G S salt
            (hS5 ▸ List.mem_range.mp hi)).symm ▸ h i hi⟩)]
    exact all_getD_beq hG5 hS5

theorem naive_map_eq_checkGuess (w g : List Char) (hw : w.length = 5)
    (hg : g.length = 5) (hnd : g.Nodup) :
    (List.range 5).map (fun i =>
      if w.getD i ' ' == g.getD i ' ' then LState.correct
      else if w.contains (g.getD i ' ') then LState.present
      else LState.absent) = checkGuess g w := by
  unfold checkGuess
  rw [secondPass_nodup_map g _ (List.range 5) _ (by rw [map_getD_range hg]; exact hnd)]
  apply List.map_congr_left
  intro i hi
  have hi5 : i < 5 := List.mem_range.mp hi
  by_cases hc : (g.getD i ' ' == w.getD i ' ') = true
  · rw [if_pos hc,
      if_pos (show (w.getD i ' ' == g.getD i ' ') = true from
        beq_iff_eq.mpr (beq_iff_eq.mp hc).symm)]
  · have hc' : ¬(w.getD i ' ' == g.getD i ' ') = true :=
      fun h => hc (beq_iff_eq.mpr (beq_iff_eq.mp h).symm)
    rw [if_neg hc', if_neg hc]
    by_cases hm : w.contains (g.getD i ' ') = true
    · have hcount : 0 < countLetters w
          (fun k => g.getD k ' ' == w.getD k ' ') (List.range 5) (g.getD i ' ') := by
        rcases List.mem_iff_getElem.mp (List.elem_iff.mp hm) with ⟨j, hj, hje⟩
        refine (countLetters_pos w _ (List.range 5) _).mpr
          ⟨j, List.mem_range.mpr (hw ▸ hj), ?_, ?_⟩
        · refine Bool.eq_false_iff.mpr (fun hcj => ?_)
          have hgj : g.getD j ' ' = g.getD i ' ' := by
            rw [beq_iff_eq.mp hcj, List.getD_eq_getElem w ' ' hj, hje]
          have hij : i ≠ j := by
            intro he
            apply hc
            rw [he]
            exact hcj
          have hig : i < g.length := hg ▸ hi5
          have hjg : j < g.length := by omega
          rw [List.getD_eq_getElem g ' ' hjg, List.getD_eq_getElem g ' ' hig] at hgj
          exact hij ((hnd.getElem_inj_iff).mp hgj).symm
        · rw [List.getD_eq_getElem w ' ' hj]
          exact hje
      rw [if_pos hm, if_pos hcount]
    · have hcount : ¬0 < countLetters w
          (fun k => g.getD k ' ' == w.getD k ' ') (List.range 5) (g.getD i ' ') := by
        intro hpos
        rcases (countLetters_pos w _ _ _).mp hpos with ⟨j, hjr, _, hje⟩
        exact hm (List.elem_iff.mpr
          (hje ▸ getD_mem (hw ▸ List.mem_range.mp hjr)))
      rw [if_neg hm, if_neg hcount]

/-- C2 (amended): the ZK guess-validation handler marks position i correct when
secret and guess agree there, and otherwise marks it present exactly when the
guessed letter occurs anywhere in the secret, with no frequency accounting; it
therefore agrees with the plaintext two-pass evaluator whenever the guess has
no repeated letters, but not in general. -/
theorem handler_includes_rule (hash : String → String) (word guess : List Char)
    (hw : word.length = 5) (hg : guess.length = 5) (hnd : (upper guess).Nodup) :
    (handleValidateGuess hash word guess).map
        (fun r => r.letterStates.map (fun s => s.state)) =
      Except.ok ((List.range 5).map (fun i =>
        if (upper word).getD i ' ' == (upper guess).getD i ' ' then LState.correct
        else if (upper word).contains ((upper guess).getD i ' ') then LState.present
        else LState.absent)) ∧
    (handleValidateGuess hash word guess).map
        (fun r => r.letterStates.map (fun s => s.state)) =
      Except.ok (checkGuess (upper guess) (upper word)) := by
  have hwl : (upper word).length = 5 := by rw [upper_length, hw]
  have hgl : (upper guess).length = 5 := by rw [upper_length, hg]
  have hloop := handlerLoop_states hash (upper word) (upper guess)
    (List.range (upper guess).length)
    (fun i hi => by rw [hwl, ← hgl]; exact List.mem_range.mp hi)
  unfold handleValidateGuess
  rw [if_neg (by rw [hwl, hgl]; exact fun h => h rfl)]
  cases hrec : handlerLoop hash (upper word) (upper guess)
      (List.range (upper guess).length) with
  | error e =>
    rw [hrec] at hloop
    exact absurd hloop (by simp [Except.map])
  | ok states =>
    rw [hrec] at hloop
    simp only [Except.map, Except.ok.injEq] at hloop
    simp only [Except.map, Except.ok.injEq]
    rw [hgl] at hloop
    refine ⟨hloop, ?_⟩
    rw [hloop]
    exact naive_map_eq_checkGuess (upper word) (upper guess) hwl hgl hnd

/-- Witness for the amended C2: secret ABCDE, guess BACDE (no repeated
letters), identity hash. -/
theorem handler_includes_rule_witness :
    (handleValidateGuess id "ABCDE".toList "BACDE".toList).map
        (fun r => r.letterStates.map (fun s => s.state)) =
      Except.ok ((List.range 5).map (fun i =>
        if (upper "ABCDE".toList).getD i ' ' == (upper "BACDE".toList).getD i ' '
          then LState.correct
        else if (upper "ABCDE".toList).contains ((upper "BACDE".toList).getD i ' ')
          then LState.present
        else LState.absent)) ∧
    (handleValidateGuess id "ABCDE".toList "BACDE".toList).map
        (fun r => r.letterStates.map (fun s => s.state)) =
      Except.ok (checkGuess (upper "BACDE".toList) (upper "ABCDE".toList)) :=
  handler_includes_rule id "ABCDE".toList "BACDE".toList
    (by decide) (by decide) (by decide)

/-- Counterexample for C2 as stated: for secret ABCDE and guess BBBBB the
handler returns present at every non-correct position (the secret contains a
B), while the frequency-aware two-pass evaluator returns absent there, because
the single B of the secret is already claimed by the correct position. -/
theorem handler_freq_counterexample :
    (handleValidateGuess id "ABCDE".toList "BBBBB".toList).map
        (fun r => r.letterStates.map (fun s => s.state)) ≠
      Except.ok (checkGuess "BBBBB".toList "ABCDE".toList) := by decide

/-- Witness for C1: secret CRANE, guess TRACE, salt s1, identity hash. -/
theorem zk_plaintext_equivalence_witness :
    (validateGuessWithZK id "TRACE".toList 5 "s1"
        (buildPositionHashes id "CRANE".toList "s1")).map
        (fun r => r.letterStates.map (fun ls => ls.state)) =
      Except.ok (checkGuess "TRACE".toList "CRANE".toList) ∧
    (validateGuessWithZK id "TRACE".toList 5 "s1"
        (buildPositionHashes id "CRANE".toList "s1")).map
        (fun r => r.isWinner) = Except.ok ("TRACE".toList == "CRANE".toList) :=
  zk_plaintext_equivalence id "CRANE".toList "TRACE".toList "s1"
    Function.injective_id (by decide) (by decide) (by decide) (by decide)

/-- C3: generateLetterProof populates letter with the actual secret letter
exactly when isCorrect is true, and with the empty string whenever isCorrect
is false — the true letter is never revealed on a miss. -/
theorem letterProof_withholding (hash : String → String) (word : List Char)
    (position : Int) (guessedLetter : Char) (salt : String) (lp : LetterProof)
    (h : generateLetterProof hash word position guessedLetter salt = Except.ok lp) :
    (lp.isCorrect = true →
      lp.letter = String.singleton ((upper word).getD position.toNat ' ')) ∧
    (lp.isCorrect = false → lp.letter = "") := by
  unfold generateLetterProof at h
  by_cases hr : position < 0 ∨ ((upper word).length : Int) ≤ position
  · rw [if_pos hr] at h
    exact absurd h (by simp)
  · rw [if_neg hr, Except.ok.injEq] at h
    rw [← h]
    constructor
    · intro hic
      have hic' : ((upper word).getD position.toNat ' ' ==
          Char.toUpper guessedLetter) = true := hic
      show (if ((upper word).getD position.toNat ' ' ==
          Char.toUpper guessedLetter) = true
        then String.singleton ((upper word).getD position.toNat ' ') else "") = _
      rw [if_pos hic']
    · intro hic
      have hic' : ((upper word).getD position.toNat ' ' ==
          Char.toUpper guessedLetter) = false := hic
      show (if ((upper word).getD position.toNat ' ' ==
          Char.toUpper guessedLetter) = true
        then String.singleton ((upper word).getD position.toNat ' ') else "") = ""
      rw [if_neg (Bool.eq_false_iff.mp hic')]

/-- Witness for C3: secret CRANE, position 1, guessed letter R (a hit). -/
theorem letterProof_withholding_witness :
    ((letterProofData id (upper "CRANE".toList) (Int.toNat 1) (Char.toUpper 'R')
        "s1").isCorrect = true →
      (letterProofData id (upper "CRANE".toList) (Int.toNat 1) (Char.toUpper 'R')
        "s1").letter =
        String.singleton ((upper "CRANE".toList).getD (Int.toNat (1 : Int)) ' ')) ∧
    ((letterProofData id (upper "CRANE".toList) (Int.toNat 1) (Char.toUpper 'R')
        "s1").isCorrect = false →
      (letterProofData id (upper "CRANE".toList) (Int.toNat 1) (Char.toUpper 'R')
        "s1").letter = "") :=
  letterProof_withholding id "CRANE".toList 1 'R' "s1" _ rfl

/-- C4: generateZKProof returns wordLength equal to the uppercased secret's
length, and merkleRoot equal to the hash of the concatenation of the position
leaves hash(i:secret[i]:salt) — a flat hash of the joined leaves. -/
theorem zkProof_root_and_length (hash : String → String) (word : List Char)
    (salt : String) (now : Nat) (h : word ≠ []) :
    (generateZKProof hash word salt now).wordLength = (upper word).length ∧
    (generateZKProof hash word salt now).merkleRoot =
      hash (String.join ((List.range (upper word).length).map
        (fun i => hash (leafString i ((upper word).getD i ' ') salt)))) :=
  ⟨rfl, rfl⟩

/-- Witness for C4 at secret CRANE, salt s1, timestamp 0. -/
theorem zkProof_root_and_length_witness :
    (generateZKProof id "CRANE".toList "s1" 0).wordLength =
      (upper "CRANE".toList).length ∧
    (generateZKProof id "CRANE".toList "s1" 0).merkleRoot =
      id (String.join ((List.range (upper "CRANE".toList).length).map
        (fun i => id (leafString i ((upper "CRANE".toList).getD i ' ') "s1")))) :=
  zkProof_root_and_length id "CRANE".toList "s1" 0 (by decide)

theorem filterNe_range_length :
    ∀ (n p : Nat), p < n → (((List.range n).filter (fun i => i != p)).length = n - 1)
  | 0, _, h => absurd h (Nat.not_lt_zero _)
  | n + 1, p, h => by
    rw [List.range_succ, List.filter_append, List.length_append]
    by_cases hp : p = n
    · have h1 : (List.range n).filter (fun i => i != p) = List.range n := by
        apply List.filter_eq_self.mpr
        intro a ha
        apply bne_iff_ne.mpr
        intro he
        rw [he, hp] at ha
        exact Nat.lt_irrefl n (List.mem_range.mp ha)
      rw [h1]
      simp [hp]
    · have hpn : p < n := by omega
      have hb : (n != p) = true := bne_iff_ne.mpr (fun he => hp he.symm)
      have h2 : List.filter (fun i => i != p) [n] = [n] := by
        simp [List.filter_singleton, hb]
      rw [filterNe_range_length n p hpn, h2]
      simp only [List.length_singleton]
      omega

/-- C5: for an in-range position the proof array has exactly secret-length
entries; its head is the hash for the queried position with the actual
letter, and for every other index i it contains hash(i:secret[i]:salt) — the
full position-hash table, whatever the guessed letter was. -/
theorem letterProof_full_table (hash : String → String) (word : List Char)
    (position : Int) (guessedLetter : Char) (salt : String) (lp : LetterProof)
    (h : generateLetterProof hash word position guessedLetter salt = Except.ok lp) :
    lp.proof.length = (upper word).length ∧
    lp.proof.getD 0 "" =
      hash (leafString position.toNat ((upper word).getD position.toNat ' ') salt) ∧
    (∀ i < (upper word).length, i ≠ position.toNat →
      hash (leafString i ((upper word).getD i ' ') salt) ∈ lp.proof) := by
  unfold generateLetterProof at h
  by_cases hr : position < 0 ∨ ((upper word).length : Int) ≤ position
  · rw [if_pos hr] at h
    exact absurd h (by simp)
  · rw [if_neg hr, Except.ok.injEq] at h
    have hpos : position.toNat < (upper word).length := by omega
    rw [← h]
    refine ⟨?_, rfl, ?_⟩
    · show (hash (leafString position.toNat ((upper word).getD position.toNat ' ') salt) ::
        ((List.range (upper word).length).filter (fun i => i != position.toNat)).map
          (fun i => hash (leafString i ((upper word).getD i ' ') salt))).length =
        (upper word).length
      rw [List.length_cons, List.length_map,
        filterNe_range_length (upper word).length position.toNat hpos]
      omega
    · intro i hi hne
      refine List.mem_cons_of_mem _ (List.mem_map_of_mem _ ?_)
      exact List.mem_filter.mpr
        ⟨List.mem_range.mpr hi, bne_iff_ne.mpr hne⟩

/-- Witness for C5: secret CRANE, position 2, guessed letter Z (a miss, the
table is disclosed anyway). -/
theorem letterProof_full_table_witness :
    (letterProofData id (upper "CRANE".toList) (Int.toNat 2) (Char.toUpper 'Z')
        "s1").proof.length = (upper "CRANE".toList).length ∧
    (letterProofData id (upper "CRANE".toList) (Int.toNat 2) (Char.toUpper 'Z')
        "s1").proof.getD 0 "" =
      id (leafString (Int.toNat (2 : Int))
        ((upper "CRANE".toList).getD (Int.toNat (2 : Int)) ' ') "s1") ∧
    (∀ i < (upper "CRANE".toList).length, i ≠ Int.toNat (2 : Int) →
      id (leafString i ((upper "CRANE".toList).getD i ' ') "s1") ∈
        (letterProofData id (upper "CRANE".toList) (Int.toNat 2) (Char.toUpper 'Z')
          "s1").proof) :=
  letterProof_full_table id "CRANE".toList 2 'Z' "s1" _ rfl

/-- C6: generateWordPresenceProof reports presence exactly when the uppercased
letter occurs in the uppercased secret; its proof field is the hash binding
the letter to its comma-joined occurrence positions when present, and the
empty string when absent. -/
theorem presenceProof_spec (hash : String → String) (word : List Char)
    (guessedLetter : Char) (salt : String) :
    ((generateWordPresenceProof hash word guessedLetter salt).isPresent = true ↔
      Char.toUpper guessedLetter ∈ upper word) ∧
    (generateWordPresenceProof hash word guessedLetter salt).proof =
      (if Char.toUpper guessedLetter ∈ upper word then
        hash (String.singleton (Char.toUpper guessedLetter) ++ ":" ++
          String.intercalate ","
            (((List.range (upper word).length).filter
              (fun i => (upper word).getD i ' ' == Char.toUpper guessedLetter)).map
              (fun i => toString i)) ++ ":" ++ salt)
      else "") := by
  unfold generateWordPresenceProof
  by_cases hm : (upper word).contains (Char.toUpper guessedLetter) = true
  · have hmem : Char.toUpper guessedLetter ∈ upper word := List.elem_iff.mp hm
    rw [if_pos hm, if_pos hmem]
    exact ⟨⟨fun _ => hmem, fun _ => rfl⟩, rfl⟩
  · have hmem : Char.toUpper guessedLetter ∉ upper word :=
      fun hc => hm (List.elem_iff.mpr hc)
    rw [if_neg hm, if_neg hmem]
    exact ⟨⟨fun hc => absurd hc Bool.false_ne_true, fun hc => absurd hc hmem⟩, rfl⟩

/-- C7: the commitment hashes secret + salt + timestamp, so two generations at
different timestamps hash different input strings and (with a collision-free
hasher) yield different commitments, while merkleRoot and wordLength depend
only on secret and salt and coincide across the two runs. -/
theorem commitment_not_reproducible (hash : String → String) (word : List Char)
    (salt : String) (t₁ t₂ : Nat) (hinj : Function.Injective hash)
    (hne : t₁ ≠ t₂) :
    String.mk (upper word) ++ salt ++ toString t₁ ≠
      String.mk (upper word) ++ salt ++ toString t₂ ∧
    (generateZKProof hash word salt t₁).commitment ≠
      (generateZKProof hash word salt t₂).commitment ∧
    (generateZKProof hash word salt t₁).merkleRoot =
      (generateZKProof hash word salt t₂).merkleRoot ∧
    (generateZKProof hash word salt t₁).wordLength =
      (generateZKProof hash word salt t₂).wordLength := by
  have hinput : String.mk (upper word) ++ salt ++ toString t₁ ≠
      String.mk (upper word) ++ salt ++ toString t₂ := by
    intro he
    apply hne
    apply toStringNat_inj
    have hd := congrArg String.data he
    rw [append_data, append_data, append_data, append_data,
      List.append_assoc, List.append_assoc, List.append_cancel_left_eq,
      List.append_cancel_left_eq] at hd
    exact String.ext hd
  exact ⟨hinput, fun hc => hinput (hinj hc), rfl, rfl⟩

/-- Witness for C7 at secret CRANE, salt s1, timestamps 0 and 1. -/
theorem commitment_not_reproducible_witness :
    String.mk (upper "CRANE".toList) ++ "s1" ++ toString 0 ≠
      String.mk (upper "CRANE".toList) ++ "s1" ++ toString 1 ∧
    (generateZKProof id "CRANE".toList "s1" 0).commitment ≠
      (generateZKProof id "CRANE".toList "s1" 1).commitment ∧
    (generateZKProof id "CRANE".toList "s1" 0).merkleRoot =
      (generateZKProof id "CRANE".toList "s1" 1).merkleRoot ∧
    (generateZKProof id "CRANE".toList "s1" 0).wordLength =
      (generateZKProof id "CRANE".toList "s1" 1).wordLength :=
  commitment_not_reproducible id "CRANE".toList "s1" 0 1
    Function.injective_id (by decide)

/-- C8: invalid inputs are rejected with an error before any letter-state or
proof output: a guess whose length differs from wordLength (client hash mode
and server handler), a position-hash table whose length differs from
wordLength, and an out-of-range position each produce Except.error, so no
letter states or proof object is returned. -/
theorem invalid_inputs_rejected (hash : String → String) (G₁ G₂ : List Char)
    (wl : Nat) (salt : String) (PH : List String) (word guess : List Char)
    (pos : Int) (gl : Char) :
    ((upper G₁).length ≠ wl →
      validateGuessWithZK hash G₁ wl salt PH =
        Except.error "Invalid guess length") ∧
    ((upper G₂).length = wl → PH.length ≠ wl →
      validateGuessWithZK hash G₂ wl salt PH =
        Except.error "Invalid position hashes") ∧
    (pos < 0 ∨ ((upper word).length : Int) ≤ pos →
      generateLetterProof hash word pos gl salt =
        Except.error "Invalid position") ∧
    ((upper guess).length ≠ (upper word).length →
      handleValidateGuess hash word guess =
        Except.error "Invalid guess length") := by
  refine ⟨fun h => ?_, fun h1 h2 => ?_, fun h => ?_, fun h => ?_⟩
  · unfold validateGuessWithZK
    rw [if_pos h]
  · unfold validateGuessWithZK
    rw [if_neg (fun hc => hc h1), if_pos h2]
  · unfold generateLetterProof
    rw [if_pos h]
  · unfold handleValidateGuess
    rw [if_pos h]

/-- Witness for C8: a 4-letter guess against wordLength 5, an empty hash
table, position -1, and a 4-letter guess to the handler. -/
theorem invalid_inputs_rejected_witness :
    validateGuessWithZK id "ABCD".toList 5 "s" [] =
      Except.error "Invalid guess length" ∧
    validateGuessWithZK id "ABCDE".toList 5 "s" [] =
      Except.error "Invalid position hashes" ∧
    generateLetterProof id "CRANE".toList (-1) 'A' "s" =
      Except.error "Invalid position" ∧
    handleValidateGuess id "CRANE".toList "ABCD".toList =
      Except.error "Invalid guess length" := by
  have h := invalid_inputs_rejected id "ABCD".toList "ABCDE".toList 5 "s" []
    "CRANE".toList "ABCD".toList (-1) 'A'
  exact ⟨h.1 (by decide), h.2.1 (by decide) (by decide),
    h.2.2.1 (by decide), h.2.2.2 (by decide)⟩

/-- C9: a per-guess result is a win exactly when every letter state is correct,
equivalently when the normalized guess equals the secret; the handler's
response carries the plaintext word exactly on a win; and the client
validator's winner flag equals the all-correct check over its letter states. -/
theorem winner_iff_all_correct (hash : String → String) (word guess : List Char)
    (G : List Char) (wl : Nat) (salt : String) (PH : List String)
    (hlen : (upper guess).length = (upper word).length)
    (hG : (upper G).length = wl) (hPH : PH.length = wl) :
    (handleValidateGuess hash word guess).map (fun r => r.isWinner) =
      Except.ok (upper guess == upper word) ∧
    (handleValidateGuess hash word guess).map
        (fun r => r.letterStates.all (fun s => s.state == LState.correct)) =
      Except.ok (upper guess == upper word) ∧
    (handleValidateGuess hash word guess).map (fun r => r.word.isSome) =
      Except.ok (upper guess == upper word) ∧
    (validateGuessWithZK hash G wl salt PH).map
        (fun r => r.isWinner ==
          r.letterStates.all (fun s => s.state == LState.correct)) =
      Except.ok true := by
  have hloop := handlerLoop_states hash (upper word) (upper guess)
    (List.range (upper guess).length)
    (fun i hi => hlen ▸ List.mem_range.mp hi)
  unfold handleValidateGuess
  rw [if_neg (fun hc => hc hlen)]
  cases hrec : handlerLoop hash (upper word) (upper guess)
      (List.range (upper guess).length) with
  | error e =>
    rw [hrec] at hloop
    exact absurd hloop (by simp [Except.map])
  | ok states =>
    rw [hrec] at hloop
    simp only [Except.map, Except.ok.injEq] at hloop
    refine ⟨rfl, ?_, ?_, ?_⟩
    · simp only [Except.map, Except.ok.injEq]
      rw [(all_map_eq (fun s => s.state) (fun st => st == LState.correct)
        states).symm, hloop, all_map_eq]
      have hpt : ∀ i ∈ List.range (upper guess).length,
          ((if (upper word).getD i ' ' == (upper guess).getD i ' ' then
              LState.correct
            else if (upper word).contains ((upper guess).getD i ' ') then
              LState.present
            else LState.absent) == LState.correct) =
          ((upper guess).getD i ' ' == (upper word).getD i ' ') := by
        intro i _
        by_cases hc : ((upper word).getD i ' ' == (upper guess).getD i ' ') = true
        · rw [if_pos hc]
          have hgw : ((upper guess).getD i ' ' == (upper word).getD i ' ') = true :=
            beq_iff_eq.mpr (beq_iff_eq.mp hc).symm
          rw [hgw]
          rfl
        · rw [if_neg hc]
          have hgw : ((upper guess).getD i ' ' == (upper word).getD i ' ') = false :=
            Bool.eq_false_iff.mpr (fun hb =>
              hc (beq_iff_eq.mpr (beq_iff_eq.mp hb).symm))
          rw [hgw]
          by_cases hp : (upper word).contains ((upper guess).getD i ' ') = true
          · rw [if_pos hp]
            rfl
          · rw [if_neg hp]
            rfl
      rw [show (List.range (upper guess).length).all (fun i =>
            (if (upper word).getD i ' ' == (upper guess).getD i ' ' then
              LState.correct
            else if (upper word).contains ((upper guess).getD i ' ') then
              LState.present
            else LState.absent) == LState.correct) =
          (List.range (upper guess).length).all (fun i =>
            (upper guess).getD i ' ' == (upper word).getD i ' ') from
        bool_eq_of_iff (by
          rw [List.all_eq_true, List.all_eq_true]
          exact ⟨fun ha i hi => (hpt i hi) ▸ ha i hi,
            fun ha i hi => (hpt i hi).symm ▸ ha i hi⟩)]
      exact all_getD_beq rfl hlen.symm
    · simp only [Except.map, Except.ok.injEq]
      by_cases hgw : (upper guess == upper word) = true
      · rw [if_pos hgw, hgw]
        rfl
      · rw [if_neg hgw, Bool.eq_false_iff.mpr hgw]
        rfl
    · unfold validateGuessWithZK
      rw [if_neg (fun hc => hc hG), if_neg (fun hc => hc hPH)]
      simp only [Except.map, Except.ok.injEq]
      exact beq_self_eq_true _

/-- Witness for C9: a winning guess CRANE against secret CRANE for the
handler, and guess TRACE in hash mode against the CRANE table. -/
theorem winner_iff_all_correct_witness :
    (handleValidateGuess id "CRANE".toList "CRANE".toList).map
        (fun r => r.isWinner) =
      Except.ok (upper "CRANE".toList == upper "CRANE".toList) ∧
    (handleValidateGuess id "CRANE".toList "CRANE".toList).map
        (fun r => r.letterStates.all (fun s => s.state == LState.correct)) =
      Except.ok (upper "CRANE".toList == upper "CRANE".toList) ∧
    (handleValidateGuess id "CRANE".toList "CRANE".toList).map
        (fun r => r.word.isSome) =
      Except.ok (upper "CRANE".toList == upper "CRANE".toList) ∧
    (validateGuessWithZK id "TRACE".toList 5 "s1"
        (buildPositionHashes id "CRANE".toList "s1")).map
        (fun r => r.isWinner ==
          r.letterStates.all (fun s => s.state == LState.correct)) =
      Except.ok true :=
  winner_iff_all_correct id "CRANE".toList "CRANE".toList "TRACE".toList 5 "s1"
    (buildPositionHashes id "CRANE".toList "s1")
    (by decide) (by decide) (by decide)

/-- C10: the client-side verifiers accept unconditionally where they cannot
check: verifyWordPresenceProof returns true for every input without examining
any argument, and verifyLetterProof returns true for every letter proof whose
isCorrect flag is false, whatever its proof array contains. -/
theorem verifiers_accept_blindly (hash : String → String) (letter pr : String)
    (isPresent : Bool) (lp : LetterProof) (zk : ZKProof) (salt : String)
    (h : lp.isCorrect = false) :
    verifyWordPresenceProof letter pr isPresent = true ∧
    verifyLetterProof hash lp zk salt = true := by
  refine ⟨rfl, ?_⟩
  unfold verifyLetterProof
  rw [h]
  rfl

/-- Witness for C10: a fabricated presence proof and an incorrect-letter proof
with an arbitrary proof array are both accepted. -/
theorem verifiers_accept_blindly_witness :
    verifyWordPresenceProof "A" "fabricated" true = true ∧
    verifyLetterProof id
      { position := 0, letter := "", proof := ["fabricated"], isCorrect := false }
      (generateZKProof id "CRANE".toList "s1" 0) "s1" = true :=
  verifiers_accept_blindly id "A" "fabricated" true
    { position := 0, letter := "", proof := ["fabricated"], isCorrect := false }
    (generateZKProof id "CRANE".toList "s1" 0) "s1" rfl

end Wrdl
